import Mathlib

/-!
Verification of the Record Extraction & Reconciliation Engine (`src/main.py`).

Python strings are modelled as `List Char`; optional values (`None`) as
`Option`; Python `float` quantities as exact rationals `ℚ` (the spec calls
them real numbers); a Python function that can raise an uncaught exception
is modelled as returning `Option`/`Except`, with `none`/`.error` marking the
raising path.
-/

namespace MaterialList

/-- Characters treated as whitespace by Python's `str.split()` / `str.strip()`.
The model covers the ASCII whitespace characters together with the two
non-ASCII spacing characters that `normalize_text` in `main.py` mentions
explicitly (thin space U+2009 and no-break space U+00A0). -/
def isPySpace (c : Char) : Bool :=
  c = ' ' || c = '\t' || c = '\n' || c = '\r' || c = '\x0b' || c = '\x0c' ||
    c = '\u00A0' || c = '\u2009'

/-- Accumulator-based worker for `pySplit`; `acc` holds the current word
reversed. -/
def pySplitAux (acc : List Char) : List Char → List (List Char)
  | [] => if acc.isEmpty then [] else [acc.reverse]
  | c :: cs =>
    if isPySpace c then
      if acc.isEmpty then pySplitAux [] cs else acc.reverse :: pySplitAux [] cs
    else pySplitAux (c :: acc) cs

/-- Python `s.split()` (no separator argument): split on runs of whitespace,
discarding empty pieces. -/
def pySplit (s : List Char) : List (List Char) := pySplitAux [] s

/-- Python `s.strip()`: remove leading and trailing whitespace. -/
def pyStrip (s : List Char) : List Char :=
  ((s.dropWhile isPySpace).reverse.dropWhile isPySpace).reverse

/-- Python `" ".join(ws)`. -/
def joinWords : List (List Char) → List Char
  | [] => []
  | [w] => w
  | w :: ws => w ++ ' ' :: joinWords ws

/-- Python `s.lower()` (ASCII letters; non-ASCII case folding is out of
scope for this document family). -/
def toLowerL (s : List Char) : List Char := s.map Char.toLower

/-- Python `s.upper()` (ASCII letters). -/
def toUpperL (s : List Char) : List Char := s.map Char.toUpper

/-- Python `s.replace(old, new)` for a single-character `old` and
single-character `new`. -/
def replaceChar (old new : Char) (s : List Char) : List Char :=
  s.map (fun c => if c = old then new else c)

/-- Configuration constant `NORMALIZE_SPACES` from `main.py`. -/
def NORMALIZE_SPACES : Bool := true

/-- `normalize_text` from `main.py` (the `None` input case is handled at the
call sites that can receive `None`, see `normalize_cell`): strip, collapse
whitespace runs, map thin/no-break spaces to ASCII space, collapse again. -/
def normalize_text (s : List Char) : List Char :=
  let s1 := pyStrip s
  let s2 := if NORMALIZE_SPACES then joinWords (pySplit s1) else s1
  let s3 := replaceChar '\u00A0' ' ' (replaceChar '\u2009' ' ' s2)
  joinWords (pySplit s3)

/-- `make_item_key` from `main.py`: the canonical grouping key, the three
normalized lower-cased fields in the order units, size, description joined
by the literal separator of one space, a bar and one space. -/
def make_item_key (size description units : List Char) : List Char :=
  toLowerL (normalize_text units) ++ (" | ".toList) ++
    toLowerL (normalize_text size) ++ (" | ".toList) ++
    toLowerL (normalize_text description)

/-! ### Basic properties of the string model -/

theorem pySplit_nil : pySplit [] = [] := rfl

theorem pySplit_cons_space {c : Char} (cs : List Char) (h : isPySpace c = true) :
    pySplit (c :: cs) = pySplit cs := by
  simp [pySplit, pySplitAux, h]

theorem isEmpty_false_of_ne_nil {acc : List Char} (h : acc ≠ []) :
    acc.isEmpty = false := by
  cases acc with
  | nil => exact absurd rfl h
  | cons a l => rfl

theorem pySplitAux_acc (s : List Char) :
    ∀ acc : List Char, acc ≠ [] →
      pySplitAux acc s =
        (acc.reverse ++ s.takeWhile (fun d => !isPySpace d)) ::
          pySplit (s.dropWhile (fun d => !isPySpace d)) := by
  induction s with
  | nil =>
    intro acc hacc
    simp [pySplitAux, isEmpty_false_of_ne_nil hacc, pySplit]
  | cons c cs ih =>
    intro acc hacc
    cases h : isPySpace c with
    | true =>
      have hns : (fun d => !isPySpace d) c = false := by simp [h]
      rw [List.takeWhile_cons, List.dropWhile_cons]
      simp only [hns, Bool.false_eq_true, if_false]
      rw [pySplit_cons_space cs h, List.append_nil]
      simp only [pySplitAux, h, if_true, isEmpty_false_of_ne_nil hacc,
        Bool.false_eq_true, if_false]
      rfl
    | false =>
      have hns : (fun d => !isPySpace d) c = true := by simp [h]
      rw [List.takeWhile_cons, List.dropWhile_cons]
      simp only [hns, if_true]
      simp only [pySplitAux, h, Bool.false_eq_true, if_false]
      rw [ih (c :: acc) (by simp)]
      simp

theorem pySplit_cons_word {c : Char} (cs : List Char) (h : isPySpace c = false) :
    pySplit (c :: cs) =
      (c :: cs.takeWhile (fun d => !isPySpace d)) ::
        pySplit (cs.dropWhile (fun d => !isPySpace d)) := by
  have hns : (fun d => !isPySpace d) c = true := by simp [h]
  show pySplitAux [] (c :: cs) = _
  simp only [pySplitAux, h, Bool.false_eq_true, if_false]
  rw [pySplitAux_acc cs [c] (by simp)]
  simp

/-- Words produced by splitting: non-empty and free of whitespace characters. -/
def GoodWords (ws : List (List Char)) : Prop :=
  ∀ w ∈ ws, w ≠ [] ∧ ∀ c ∈ w, isPySpace c = false

theorem length_dropWhile_le' (p : Char → Bool) :
    ∀ l : List Char, (l.dropWhile p).length ≤ l.length := by
  intro l
  induction l with
  | nil => exact le_rfl
  | cons c cs ih =>
    rw [List.dropWhile_cons]
    by_cases hc : p c = true
    · rw [if_pos hc]
      exact le_trans ih (by simp)
    · rw [if_neg hc]

theorem pySplit_good_aux :
    ∀ (n : Nat) (s : List Char), s.length ≤ n → GoodWords (pySplit s) := by
  intro n
  induction n with
  | zero =>
    intro s hs
    have : s = [] := List.length_eq_zero.mp (Nat.le_zero.mp hs)
    subst this
    intro w hw
    simp [pySplit_nil] at hw
  | succ n ih =>
    intro s hs w hw
    cases s with
    | nil => simp [pySplit_nil] at hw
    | cons c cs =>
      have hcs : cs.length ≤ n := by
        simpa using Nat.le_of_succ_le_succ (by simpa using hs)
      cases h : isPySpace c with
      | true =>
        rw [pySplit_cons_space cs h] at hw
        exact ih cs hcs w hw
      | false =>
        rw [pySplit_cons_word cs h] at hw
        rcases List.mem_cons.mp hw with rfl | hw'
        · refine ⟨by simp, ?_⟩
          intro d hd
          rcases List.mem_cons.mp hd with rfl | hd'
          · exact h
          · simpa using List.mem_takeWhile_imp hd'
        · exact ih (cs.dropWhile fun d => !isPySpace d)
            (le_trans (length_dropWhile_le' _ _) hcs) w hw'

theorem pySplit_good (s : List Char) : GoodWords (pySplit s) :=
  pySplit_good_aux s.length s le_rfl

theorem pySplit_space_append (r : List Char) :
    ∀ sp : List Char, (∀ c ∈ sp, isPySpace c = true) → pySplit (sp ++ r) = pySplit r := by
  intro sp
  induction sp with
  | nil => intro _; rfl
  | cons c cs ih =>
    intro h
    rw [List.cons_append, pySplit_cons_space _ (h c (by simp))]
    exact ih fun d hd => h d (by simp [hd])

theorem pySplit_all_space (sp : List Char) (h : ∀ c ∈ sp, isPySpace c = true) :
    pySplit sp = [] := by
  have h2 := pySplit_space_append [] sp h
  rwa [List.append_nil, pySplit_nil] at h2

theorem takeWhile_ns_space (sp : List Char) (h : ∀ c ∈ sp, isPySpace c = true) :
    sp.takeWhile (fun d => !isPySpace d) = [] := by
  cases sp with
  | nil => rfl
  | cons c cs =>
    rw [List.takeWhile_cons]
    simp [h c (by simp)]

theorem dropWhile_ns_space (sp : List Char) (h : ∀ c ∈ sp, isPySpace c = true) :
    sp.dropWhile (fun d => !isPySpace d) = sp := by
  cases sp with
  | nil => rfl
  | cons c cs =>
    rw [List.dropWhile_cons]
    simp [h c (by simp)]

theorem dropWhile_eq_cons_head {p : Char → Bool} :
    ∀ (l : List Char) (d : Char) (t : List Char), l.dropWhile p = d :: t → p d = false := by
  intro l
  induction l with
  | nil =>
    intro d t h
    simp [List.dropWhile] at h
  | cons c cs ih =>
    intro d t h
    rw [List.dropWhile_cons] at h
    by_cases hc : p c = true
    · rw [if_pos hc] at h
      exact ih d t h
    · rw [if_neg hc] at h
      injection h with h1 _
      subst h1
      cases hx : p c with
      | false => rfl
      | true => exact absurd hx hc

theorem pySplit_append_space :
    ∀ (n : Nat) (u sp : List Char), u.length ≤ n →
      (∀ c ∈ sp, isPySpace c = true) → pySplit (u ++ sp) = pySplit u := by
  intro n
  induction n with
  | zero =>
    intro u sp hu hsp
    have : u = [] := List.length_eq_zero.mp (Nat.le_zero.mp hu)
    subst this
    simp [pySplit_all_space sp hsp, pySplit_nil]
  | succ n ih =>
    intro u sp hu hsp
    cases u with
    | nil => simp [pySplit_all_space sp hsp, pySplit_nil]
    | cons c u' =>
      have hu' : u'.length ≤ n := by
        simpa using Nat.le_of_succ_le_succ (by simpa using hu)
      cases hc : isPySpace c with
      | true =>
        rw [List.cons_append, pySplit_cons_space _ hc, pySplit_cons_space _ hc]
        exact ih u' sp hu' hsp
      | false =>
        rw [List.cons_append, pySplit_cons_word _ hc, pySplit_cons_word _ hc]
        have hw : ∀ a ∈ u'.takeWhile (fun d => !isPySpace d),
            (fun d => !isPySpace d) a = true := fun a ha =>
          List.mem_takeWhile_imp (p := fun d => !isPySpace d) ha
        have hdecomp :
            u'.takeWhile (fun d => !isPySpace d) ++ u'.dropWhile (fun d => !isPySpace d) = u' :=
          List.takeWhile_append_dropWhile _ _
        cases hr : u'.dropWhile (fun d => !isPySpace d) with
        | nil =>
          have hu'' : u' = u'.takeWhile (fun d => !isPySpace d) := by
            conv_lhs => rw [← hdecomp, hr]
            rw [List.append_nil]
          conv_lhs => rw [hu'']
          rw [List.takeWhile_append_of_pos hw, List.dropWhile_append_of_pos hw,
            takeWhile_ns_space sp hsp, dropWhile_ns_space sp hsp,
            List.append_nil, pySplit_all_space sp hsp, pySplit_nil]
        | cons d t =>
          have hd : (fun x => !isPySpace x) d = false := dropWhile_eq_cons_head u' d t hr
          have hu'' : u' = u'.takeWhile (fun x => !isPySpace x) ++ d :: t := by
            conv_lhs => rw [← hdecomp, hr]
          have hlen : (d :: t).length ≤ n := hr ▸ le_trans (length_dropWhile_le' _ _) hu'
          conv_lhs => rw [hu'', List.append_assoc]
          rw [List.takeWhile_append_of_pos hw, List.dropWhile_append_of_pos hw]
          conv_rhs => rw [hu'']
          rw [List.takeWhile_append_of_pos hw]
          rw [List.cons_append, List.takeWhile_cons, List.takeWhile_cons]
          simp only [hd, Bool.false_eq_true, if_false]
          rw [List.dropWhile_cons]
          simp only [hd, Bool.false_eq_true, if_false]
          have hstep := ih (d :: t) sp hlen hsp
          rw [List.cons_append] at hstep
          rw [hstep]

theorem pySplit_pyStrip (s : List Char) : pySplit (pyStrip s) = pySplit s := by
  have hlead : ∀ c ∈ s.takeWhile isPySpace, isPySpace c = true :=
    fun c hc => List.mem_takeWhile_imp hc
  have h1 : pySplit s = pySplit (s.dropWhile isPySpace) := by
    conv_lhs => rw [← List.takeWhile_append_dropWhile (p := isPySpace) (l := s)]
    exact pySplit_space_append _ _ hlead
  set t := s.dropWhile isPySpace with ht
  have hdecomp :
      t.reverse.takeWhile isPySpace ++ t.reverse.dropWhile isPySpace = t.reverse :=
    List.takeWhile_append_dropWhile _ _
  have h2 : t = (t.reverse.dropWhile isPySpace).reverse ++
      (t.reverse.takeWhile isPySpace).reverse := by
    conv_lhs => rw [← List.reverse_reverse t, ← hdecomp]
    rw [List.reverse_append]
  have htail : ∀ c ∈ (t.reverse.takeWhile isPySpace).reverse, isPySpace c = true := by
    intro c hc
    exact List.mem_takeWhile_imp (List.mem_reverse.mp hc)
  have h3 : pySplit t = pySplit ((t.reverse.dropWhile isPySpace).reverse) := by
    conv_lhs => rw [h2]
    exact pySplit_append_space ((t.reverse.dropWhile isPySpace).reverse).length _ _ le_rfl htail
  rw [h1, h3]
  rfl

theorem joinWords_cons₂ (w v : List Char) (vs : List (List Char)) :
    joinWords (w :: v :: vs) = w ++ ' ' :: joinWords (v :: vs) := rfl

theorem pySplit_word_append (w r : List Char) (hw : w ≠ [])
    (hns : ∀ c ∈ w, isPySpace c = false) :
    pySplit (w ++ r) =
      (w ++ r.takeWhile (fun d => !isPySpace d)) ::
        pySplit (r.dropWhile (fun d => !isPySpace d)) := by
  cases w with
  | nil => exact absurd rfl hw
  | cons c w' =>
    have hpos : ∀ a ∈ w', (fun d => !isPySpace d) a = true := by
      intro a ha
      simp [hns a (by simp [ha])]
    rw [List.cons_append, pySplit_cons_word _ (hns c (by simp)),
      List.takeWhile_append_of_pos hpos, List.dropWhile_append_of_pos hpos]
    simp

theorem pySplit_joinWords :
    ∀ ws : List (List Char), GoodWords ws → pySplit (joinWords ws) = ws := by
  intro ws
  induction ws with
  | nil => intro _; rfl
  | cons w vs ih =>
    intro hgood
    have hw := hgood w (by simp)
    cases vs with
    | nil =>
      show pySplit w = [w]
      have h0 := pySplit_word_append w [] hw.1 hw.2
      rwa [List.append_nil, List.takeWhile_nil, List.dropWhile_nil,
        List.append_nil, pySplit_nil] at h0
    | cons v vs' =>
      rw [joinWords_cons₂, pySplit_word_append w _ hw.1 hw.2]
      have hsp : (fun d => !isPySpace d) ' ' = false := by decide
      rw [List.takeWhile_cons, List.dropWhile_cons]
      simp only [hsp, Bool.false_eq_true, if_false]
      rw [List.append_nil, pySplit_cons_space _ (by decide)]
      rw [ih fun x hx => hgood x (by simp [hx])]

theorem mem_joinWords :
    ∀ (ws : List (List Char)) (c : Char), c ∈ joinWords ws → c = ' ' ∨ ∃ w ∈ ws, c ∈ w := by
  intro ws
  induction ws with
  | nil => intro c hc; simp [joinWords] at hc
  | cons w vs ih =>
    intro c hc
    cases vs with
    | nil =>
      right
      exact ⟨w, by simp, hc⟩
    | cons v vs' =>
      rw [joinWords_cons₂] at hc
      rcases List.mem_append.mp hc with hcw | hcr
      · right; exact ⟨w, by simp, hcw⟩
      · rcases List.mem_cons.mp hcr with rfl | hcr'
        · left; rfl
        · rcases ih c hcr' with h | ⟨u, hu, hcu⟩
          · left; exact h
          · right; exact ⟨u, by simp [hu], hcu⟩

theorem replaceChar_joinWords (old : Char) (hold : isPySpace old = true)
    (hne : old ≠ ' ') (ws : List (List Char)) (hws : GoodWords ws) :
    replaceChar old ' ' (joinWords ws) = joinWords ws := by
  unfold replaceChar
  have hcongr : ∀ c ∈ joinWords ws, (if c = old then ' ' else c) = c := by
    intro c hc
    rcases mem_joinWords ws c hc with rfl | ⟨w, hw, hcw⟩
    · rw [if_neg fun h => hne h.symm]
    · have : isPySpace c = false := (hws w hw).2 c hcw
      rw [if_neg]
      intro h
      rw [h, hold] at this
      exact Bool.true_eq_false.mp this
  calc (joinWords ws).map (fun c => if c = old then ' ' else c)
      = (joinWords ws).map id := List.map_congr_left hcongr
    _ = joinWords ws := List.map_id _

theorem normalize_text_eq (s : List Char) :
    normalize_text s = joinWords (pySplit s) := by
  simp only [normalize_text, NORMALIZE_SPACES, if_true, pySplit_pyStrip]
  rw [replaceChar_joinWords ' ' (by decide) (by decide) _ (pySplit_good s)]
  rw [replaceChar_joinWords ' ' (by decide) (by decide) _ (pySplit_good s)]
  rw [pySplit_joinWords _ (pySplit_good s)]

theorem normalize_text_joinWords (ws : List (List Char)) (h : GoodWords ws) :
    normalize_text (joinWords ws) = joinWords ws := by
  rw [normalize_text_eq, pySplit_joinWords _ h]

theorem toLowerL_joinWords :
    ∀ ws : List (List Char), toLowerL (joinWords ws) = joinWords (ws.map toLowerL) := by
  intro ws
  induction ws with
  | nil => rfl
  | cons w vs ih =>
    cases vs with
    | nil => rfl
    | cons v vs' =>
      rw [joinWords_cons₂]
      show toLowerL (w ++ ' ' :: joinWords (v :: vs')) = _
      unfold toLowerL at *
      rw [List.map_append, List.map_cons, ih]
      rw [show Char.toLower ' ' = ' ' from by decide]
      rfl

theorem toLowerL_normalize (s : List Char) :
    toLowerL (normalize_text s) = joinWords ((pySplit s).map toLowerL) := by
  rw [normalize_text_eq, toLowerL_joinWords]

/-! ### Python float parsing -/

/-- Numeric value of a digit string (most significant first). -/
def natOfDigits (ds : List Char) : Nat :=
  ds.foldl (fun n c => 10 * n + (c.toNat - 48)) 0

/-- Python `float(s)` on the standard decimal forms
`[ws] [sign] digits [. digits] [(e|E) [sign] digits] [ws]`, returning `none`
on `ValueError`. Exotic accepted spellings (`inf`, `nan`, underscore digit
separators) are outside the document family and not modelled. -/
def pyFloat (s0 : List Char) : Option ℚ :=
  let s := pyStrip s0
  let sgn : ℚ × List Char :=
    match s with
    | '+' :: r => (1, r)
    | '-' :: r => (-1, r)
    | r => (1, r)
  let ip := sgn.2.takeWhile Char.isDigit
  let r1 := sgn.2.dropWhile Char.isDigit
  let fp : List Char × List Char :=
    match r1 with
    | '.' :: t => (t.takeWhile Char.isDigit, t.dropWhile Char.isDigit)
    | t => ([], t)
  if ip.isEmpty && fp.1.isEmpty then none
  else
    let mant : ℚ :=
      sgn.1 * ((natOfDigits ip : ℚ) + (natOfDigits fp.1 : ℚ) / (10 : ℚ) ^ fp.1.length)
    match fp.2 with
    | [] => some mant
    | e :: t =>
      if e = 'e' || e = 'E' then
        let esgn : Int × List Char :=
          match t with
          | '+' :: u => (1, u)
          | '-' :: u => (-1, u)
          | u => (1, u)
        let ed := esgn.2.takeWhile Char.isDigit
        let t2 := esgn.2.dropWhile Char.isDigit
        if ed.isEmpty || !t2.isEmpty then none
        else some (mant * (10 : ℚ) ^ (esgn.1 * (natOfDigits ed : Int)))
      else none

/-! ### Records -/

/-- Raw Record (one extracted line item), exactly the dict built by the two
extractors in `main.py`. -/
structure Record where
  source : List Char
  quantity : ℚ
  units : List Char
  size : List Char
  description : List Char
  item_key : List Char
deriving DecidableEq

/-- Master Record: one row of the aggregated list, in the output column
order `quantity, units, size, description, item_key`. -/
structure Master where
  quantity : ℚ
  units : List Char
  size : List Char
  description : List Char
  item_key : List Char
deriving DecidableEq

/-- One table cell as delivered by the external decoder: possibly absent
(`None`). -/
abbrev Cell := Option (List Char)

/-- Cell normalization: `normalize_text` in `main.py` maps `None` to `""` via
its leading `if s is None` guard. -/
def normalize_cell : Cell → List Char
  | none => []
  | some s => normalize_text s

/-! ### Table Row Extractor -/

/-- `HEADER_HINTS` from `main.py` (a set in Python; only membership is used). -/
def HEADER_HINTS : List (List Char) :=
  [("quantity".toList), ("units".toList), ("size".toList), ("description".toList)]

/-- Normalized, lower-cased header cells (`main.py` line 43). -/
def headerOf (row : List Cell) : List (List Char) :=
  row.map fun c => toLowerL (normalize_cell c)

/-- Header acceptance check from `main.py` line 45:
`any(h in HEADER_HINTS for h in header)` — `h in HEADER_HINTS` is membership
of the whole cell in the hint set, i.e. exact equality with some hint. -/
def headerHintPass (header : List (List Char)) : Bool :=
  header.any fun h => HEADER_HINTS.contains h

/-- Python substring containment `needle in hay` (contiguous). -/
def isSubstring (needle : List Char) : List Char → Bool
  | [] => needle.isEmpty
  | c :: cs => needle.isPrefixOf (c :: cs) || isSubstring needle cs

/-- Index of the first element satisfying `p` (the `find_col` loop shape). -/
def firstIdx (p : List Char → Bool) : List (List Char) → Option Nat
  | [] => none
  | h :: hs => if p h then some 0 else (firstIdx p hs).map (· + 1)

/-- `find_col` from `main.py`: first header cell containing `name` as a
substring (Python `name in h`). -/
def find_col (header : List (List Char)) (name : List Char) : Option Nat :=
  firstIdx (fun h => isSubstring name h) header

/-- `mapM` over `Option` written out; `none` anywhere aborts (models an
uncaught exception inside the per-row loop). -/
def mapMO {A B : Type} (f : A → Option B) : List A → Option (List B)
  | [] => some []
  | a :: as =>
    match f a, mapMO f as with
    | some b, some bs => some (b :: bs)
    | _, _ => none

/-- Body of the data-row loop of `extract_rows_from_table` for one row.
Outer `Option` is the exception layer (`none` = uncaught `IndexError`; the
guards make it unreachable, see the C10 theorem); inner `Option` is
skip/emit. -/
def processTableRow (iq iu isz idsc : Nat) (src : List Char) (r : List Cell) :
    Option (Option Record) :=
  if r = [] ∨ r.length < max (max iq iu) (max isz idsc) + 1 then some none
  else
    match r.get? iq, r.get? iu, r.get? isz, r.get? idsc with
    | some cq, some cu, some cs, some cd =>
      let qty_raw := normalize_cell cq
      let units := normalize_cell cu
      let size := normalize_cell cs
      let desc := normalize_cell cd
      if qty_raw = [] ∨ units = [] ∨ desc = [] then some none
      else
        match pyFloat qty_raw with
        | none => some none
        | some qty =>
          some (some (Record.mk src qty units size desc (make_item_key size desc units)))
    | _, _, _, _ => none

/-- Column resolution and data-row loop of `extract_rows_from_table`
(`main.py` lines 49-92); a missing column returns the rows collected so far,
which is the empty list. -/
def resolveColumns (header : List (List Char)) (body : List (List Cell))
    (src : List Char) : Option (List Record) :=
  match find_col header ("quantity".toList), find_col header ("units".toList),
      find_col header ("size".toList), find_col header ("description".toList) with
  | some iq, some iu, some isz, some idsc =>
    (mapMO (processTableRow iq iu isz idsc src) body).map fun os =>
      os.filterMap fun x => x
  | _, _, _, _ => some []

/-- `extract_rows_from_table` from `main.py`. `table` is `None` or a list of
rows; fewer than 2 rows, or a header without an exact hint match, yields no
records. -/
def extract_rows_from_table (table : Option (List (List Cell))) (src : List Char) :
    Option (List Record) :=
  match table with
  | none => some []
  | some [] => some []
  | some [_] => some []
  | some (hdr :: body) =>
    if headerHintPass (headerOf hdr) then resolveColumns (headerOf hdr) body src
    else some []

/-- Modelled from the spec claim for C4: identical to
`extract_rows_from_table` except that the header acceptance check uses a
substring match against the hint tokens, as the claim words it. -/
def headerHintSub (header : List (List Char)) : Bool :=
  header.any fun h => HEADER_HINTS.any fun k => isSubstring k h

/-- Modelled from the spec claim for C4 (substring header check); used only
to exhibit the divergence from the code. -/
def extract_rows_from_table_spec (table : Option (List (List Cell))) (src : List Char) :
    Option (List Record) :=
  match table with
  | none => some []
  | some [] => some []
  | some [_] => some []
  | some (hdr :: body) =>
    if headerHintSub (headerOf hdr) then resolveColumns (headerOf hdr) body src
    else some []

/-! ### Text Row Extractor -/

/-- Python `str.splitlines()` worker (line breaks `\n`, `\r`, `\r\n`; the
rarer Unicode breaks do not occur in this document family). -/
def pySplitlinesAux (acc : List Char) : List Char → List (List Char)
  | [] => if acc.isEmpty then [] else [acc.reverse]
  | '\r' :: '\n' :: rest => acc.reverse :: pySplitlinesAux [] rest
  | c :: rest =>
    if c = '\n' || c = '\r' then acc.reverse :: pySplitlinesAux [] rest
    else pySplitlinesAux (c :: acc) rest

/-- Python `text.splitlines()`. -/
def pySplitlines (s : List Char) : List (List Char) := pySplitlinesAux [] s

/-- `stitch_wrapped_lines` from `main.py`. A normalized-blank line is
skipped; a line of exactly two tokens `qty unit` with `qty` parsing as a
float and `unit` upper-casing to `EA`/`LF` is joined with the next line when
that next line normalizes to non-blank. When the next line is blank the loop
appends the current line and advances one position, after which the blank
next line is itself skipped: net effect `cur :: ...rest2`. -/
def stitch_wrapped_lines : List (List Char) → List (List Char)
  | [] => []
  | l :: rest =>
    if (normalize_text l).isEmpty then stitch_wrapped_lines rest
    else
      match pySplit (normalize_text l) with
      | [qty_raw, unit_raw] =>
        if (pyFloat qty_raw).isSome &&
            (toUpperL unit_raw == ("EA".toList) || toUpperL unit_raw == ("LF".toList)) then
          match rest with
          | [] => [normalize_text l]
          | nxt0 :: rest2 =>
            if !(normalize_text nxt0).isEmpty then
              (normalize_text l ++ ' ' :: normalize_text nxt0) :: stitch_wrapped_lines rest2
            else normalize_text l :: stitch_wrapped_lines rest2
        else normalize_text l :: stitch_wrapped_lines rest
      | _ => normalize_text l :: stitch_wrapped_lines rest

/-- `DESC_START_TOKENS` from `main.py`. -/
def DESC_START_TOKENS : List (List Char) :=
  [("type".toList), ("propress".toList), ("wrot".toList), ("threaded".toList),
    ("butterfly".toList), ("bolts".toList), ("valve".toList), ("adapter".toList),
    ("coupling".toList), ("cap".toList), ("tee".toList), ("ell".toList),
    ("reducer".toList), ("flange".toList), ("plug".toList), ("tube".toList),
    ("street".toList), ("measurement/balancing".toList)]

/-- `find_desc_start_index` from `main.py`: first token equal to or starting
with a marker (case-insensitively). -/
def find_desc_start_index (tokens : List (List Char)) : Option Nat :=
  firstIdx
    (fun t => DESC_START_TOKENS.any fun k => toLowerL t == k || k.isPrefixOf (toLowerL t))
    tokens

/-- One iteration of the line loop of `extract_rows_from_text`
(`main.py` lines 154-205). Outer `Option` is the exception layer (`none` =
uncaught `IndexError` on `parts[0]`/`parts[1]`, unreachable behind the
length guard); inner `Option` is skip/emit. -/
def processLine (src line : List Char) : Option (Option Record) :=
  let l := normalize_text line
  if l = [] then some none
  else
    let low := toLowerL l
    if ("dkc -".toList).isPrefixOf low = true ∨
        ("quantity units".toList).isPrefixOf low = true then
      some none
    else
      let parts := pySplit l
      if parts.length < 4 then some none
      else
        match parts.get? 0, parts.get? 1 with
        | some qty_raw, some units_raw =>
          match pyFloat qty_raw with
          | none => some none
          | some qty =>
            let units := normalize_text units_raw
            if ¬(toUpperL units = ("EA".toList) ∨ toUpperL units = ("LF".toList)) then
              some none
            else
              let remainder := parts.drop 2
              let size0 : List Char :=
                match find_desc_start_index remainder with
                | none => []
                | some 0 => []
                | some k => joinWords (remainder.take k)
              let desc0 : List Char :=
                match find_desc_start_index remainder with
                | none => joinWords remainder
                | some 0 => joinWords remainder
                | some k => joinWords (remainder.drop k)
              let size := normalize_text size0
              let desc := normalize_text desc0
              if desc = [] then some none
              else some (some (Record.mk src qty units size desc (make_item_key size desc units)))
        | _, _ => none

/-- `extract_rows_from_text` from `main.py`: `if not text` guard, then
stitching, then the per-line loop. -/
def extract_rows_from_text (text : Option (List Char)) (src : List Char) :
    Option (List Record) :=
  match text with
  | none => some []
  | some t =>
    if t = [] then some []
    else
      (mapMO (processLine src) (stitch_wrapped_lines (pySplitlines t))).map fun os =>
        os.filterMap fun x => x

/-! ### Size coercion, aggregation and sorting -/

/-- Replace every occurrence of the single character `old` by the string
`new` (Python `str.replace` with a one-character pattern). -/
def replaceFrac (old : Char) (new : List Char) (s : List Char) : List Char :=
  (s.map fun c => if c = old then new else [c]).flatten

/-- `size_to_float` from `main.py`, exception-aware: `none` models the
uncaught `IndexError` raised by `s.split()[0]` when the part before the
first `x` is empty or whitespace; the `try` in the source only catches the
`ValueError` of `float`, which yields `0.0`. -/
def size_to_float? (size : List Char) : Option ℚ :=
  if size.isEmpty then some 0
  else
    let s1 := replaceFrac '¾' (".75".toList)
      (replaceFrac '½' (".5".toList) (replaceFrac '¼' (".25".toList) size))
    let s2 := pyStrip (s1.takeWhile fun c => c ≠ 'x')
    match (pySplit s2).head? with
    | none => none
    | some tok =>
      match pyFloat tok with
      | some q => some q
      | none => some 0

/-- The rank used for the helper sort column in `main.py`: the upper-cased
units map to 0 for LF and 1 for EA, with dictionary default 99. -/
def unit_order_rank (units : List Char) : Nat :=
  if toUpperL units == ("LF".toList) then 0
  else if toUpperL units == ("EA".toList) then 1
  else 99

/-- Code-point lexicographic strict order on strings (Python `<`). -/
def lexLt : List Char → List Char → Bool
  | [], [] => false
  | [], _ :: _ => true
  | _ :: _, [] => false
  | a :: as, b :: bs => decide (a < b) || (a == b && lexLt as bs)

/-- Code-point lexicographic order, reflexive version. -/
def lexLe (a b : List Char) : Bool := a == b || lexLt a b

/-- Comparator realised by `sort_values(by=["_unit_sort", "description",
"_size_sort"])`: unit rank, then description, then numeric size. The second
component of each pair is the precomputed `_size_sort` column. -/
def masterLe (a b : Master × ℚ) : Bool :=
  let ra := unit_order_rank a.1.units
  let rb := unit_order_rank b.1.units
  if ra ≠ rb then decide (ra < rb)
  else if a.1.description ≠ b.1.description then lexLt a.1.description b.1.description
  else decide (a.2 ≤ b.2)

/-- The sort step of `main`: compute `_size_sort = size_to_float(size)` for
every row (any raise aborts, hence the outer `Option`), sort by
(rank, description, size value), drop the helper column. -/
def sortMaster? (ms : List Master) : Option (List Master) :=
  (mapMO (fun m => (size_to_float? m.size).map fun v => (m, v)) ms).map fun ps =>
    (ps.insertionSort fun a b => masterLe a b = true).map Prod.fst

/-- The pandas `groupby` key: the four grouping columns of `main.py`
line 278, in order. -/
abbrev GroupKey := List Char × List Char × List Char × List Char

/-- Grouping key of a raw record. -/
def recKey (r : Record) : GroupKey := (r.item_key, r.units, r.size, r.description)

/-- Grouping key of a master record. -/
def masterKey (m : Master) : GroupKey := (m.item_key, m.units, m.size, m.description)

/-- Lexicographic order on group keys (pandas sorts grouped keys ascending). -/
def groupKeyLe (a b : GroupKey) : Bool :=
  lexLt a.1 b.1 || (a.1 == b.1 &&
    (lexLt a.2.1 b.2.1 || (a.2.1 == b.2.1 &&
      (lexLt a.2.2.1 b.2.2.1 || (a.2.2.1 == b.2.2.1 && lexLe a.2.2.2 b.2.2.2)))))

/-- Sum of the quantities of the records in one group. -/
def groupQty (rs : List Record) (k : GroupKey) : ℚ :=
  ((rs.filter fun r => decide (recKey r = k)).map Record.quantity).sum

/-- The master record produced for one group key. -/
def mkMaster (rs : List Record) (k : GroupKey) : Master :=
  Master.mk (groupQty rs k) k.2.1 k.2.2.1 k.2.2.2 k.1

/-- The `groupby(...).agg(quantity=sum)` step of `main`: one master record
per distinct group key, quantities summed. -/
def aggregate (rs : List Record) : List Master :=
  (((rs.map recKey).dedup).insertionSort fun a b => groupKeyLe a b = true).map
    (mkMaster rs)

/-- The two fatal outcomes of the post-extraction part of `main`. -/
inductive PipelineError where
  | noRowsExtracted
  | uncaughtException
deriving DecidableEq

/-- The post-extraction part of `main` (`main.py` lines 270-309): abort with
`RuntimeError("No rows extracted.")` when no raw records exist, otherwise
aggregate, sort and hand (master, raw) to the output sink. `Except.error`
models an abort before anything is written. -/
def mainPipeline (rows : List Record) : Except PipelineError (List Master × List Record) :=
  if rows.isEmpty then Except.error PipelineError.noRowsExtracted
  else
    match sortMaster? (aggregate rows) with
    | none => Except.error PipelineError.uncaughtException
    | some master => Except.ok (master, rows)

/-! ### Claim C8: normalization idempotence -/

/-- Claim C8: the text normalizer is idempotent: for every string `s`,
`normalize_text (normalize_text s) = normalize_text s`. -/
theorem C8_normalize_idempotent (s : List Char) :
    normalize_text (normalize_text s) = normalize_text s := by
  rw [normalize_text_eq s, normalize_text_joinWords _ (pySplit_good s)]

/-! ### Claim C2: key determinism -/

/-- Claim C2: `make_item_key` is a pure function of the lower-cased whitespace
tokens of (units, size, description): two triples differing only in letter
case or in leading/trailing/internal whitespace (same token lists after
lower-casing) produce identical keys, independently of source document. -/
theorem C2_key_determinism (u s d u' s' d' : List Char)
    (hu : (pySplit u).map toLowerL = (pySplit u').map toLowerL)
    (hs : (pySplit s).map toLowerL = (pySplit s').map toLowerL)
    (hd : (pySplit d).map toLowerL = (pySplit d').map toLowerL) :
    make_item_key s d u = make_item_key s' d' u' := by
  unfold make_item_key
  simp only [toLowerL_normalize]
  rw [hu, hs, hd]

/-- Witness for C2 at concrete inputs differing in case and spacing. -/
theorem C2_key_determinism_witness :
    (pySplit ("EA".toList)).map toLowerL = (pySplit (" ea ".toList)).map toLowerL
  ∧ (pySplit ("1/2\"".toList)).map toLowerL = (pySplit ("1/2\"".toList)).map toLowerL
  ∧ (pySplit ("Ball  Valve".toList)).map toLowerL =
      (pySplit ("ball valve".toList)).map toLowerL
  ∧ make_item_key ("1/2\"".toList) ("Ball  Valve".toList) ("EA".toList) =
      make_item_key ("1/2\"".toList) ("ball valve".toList) (" ea ".toList) :=
  ⟨by decide, by decide, by decide,
    C2_key_determinism ("EA".toList) ("1/2\"".toList) ("Ball  Valve".toList)
      (" ea ".toList) ("1/2\"".toList) ("ball valve".toList)
      (by decide) (by decide) (by decide)⟩

/-! ### Claim C5: size_to_float totality (code bug) -/

/-- Claim C5 (code bug): `size_to_float` is not total. On a size whose part before
the first `x` is empty or whitespace (such as `"x close"`, reachable because
sizes are free text) the expression `s.split()[0]` raises an uncaught
`IndexError` (modelled as `none`), aborting the run, whereas the spec
requires any parse failure to yield `0.0`. An ordinarily unparsable size
such as `"abc"`, and the empty size, do yield `0.0` through the guarded
`ValueError` path. -/
theorem C5_size_to_float_code_bug :
    size_to_float? ("x close".toList) = none
  ∧ size_to_float? ("abc".toList) = some 0
  ∧ size_to_float? ("".toList) = some 0 :=
  ⟨by decide, by decide, by decide⟩

/-! ### Claim C6: line-wrap stitching -/

/-- Qualification test for a wrapped quantity/unit prefix line: exactly two
whitespace tokens, the first parsing as a float, the second upper-casing to
`EA` or `LF`. -/
def stitchQualifies (l : List Char) : Bool :=
  match pySplit l with
  | [qty_raw, unit_raw] =>
    (pyFloat qty_raw).isSome &&
      (toUpperL unit_raw == ("EA".toList) || toUpperL unit_raw == ("LF".toList))
  | _ => false

/-- Modelled from the spec claim for C6: first normalize every line and drop
the blank ones, then stitch each qualifying two-token line with the next
remaining line (a trailing qualifying line is kept). Used only to exhibit
the divergence from `stitch_wrapped_lines`. -/
def stitch_spec_go : List (List Char) → List (List Char)
  | [] => []
  | l :: rest =>
    if stitchQualifies l then
      match rest with
      | [] => [l]
      | nxt :: rest2 => (l ++ ' ' :: nxt) :: stitch_spec_go rest2
    else l :: stitch_spec_go rest

/-- Modelled from the spec claim for C6, entry point: normalize, drop
blanks, then stitch. -/
def stitch_spec (lines : List (List Char)) : List (List Char) :=
  stitch_spec_go ((lines.map normalize_text).filter fun l => !l.isEmpty)

/-- Amendment for C6: the code walks the physical lines in order; blanks are
dropped; a qualifying line is stitched with the immediately following
physical line only when that line normalizes to non-blank, and is kept
unstitched when the following physical line is blank or absent. -/
def stitch_amended : List (List Char) → List (List Char)
  | [] => []
  | l :: rest =>
    if (normalize_text l).isEmpty then stitch_amended rest
    else if stitchQualifies (normalize_text l) then
      match rest with
      | [] => [normalize_text l]
      | nxt :: rest2 =>
        if (normalize_text nxt).isEmpty then normalize_text l :: stitch_amended rest2
        else (normalize_text l ++ ' ' :: normalize_text nxt) :: stitch_amended rest2
    else normalize_text l :: stitch_amended rest

/-- Claim C6 counterexample: with a blank physical line between the wrapped
prefix and its continuation, the code does not stitch (it emits the prefix
and drops the blank), while the claim's order of operations (drop blanks
first, then stitch with the next remaining line) stitches them. -/
theorem C6_stitch_counterexample :
    stitch_wrapped_lines [("2 EA".toList), ("".toList), ("Valve A B".toList)] =
      [("2 EA".toList), ("Valve A B".toList)]
  ∧ stitch_spec [("2 EA".toList), ("".toList), ("Valve A B".toList)] =
      [("2 EA Valve A B".toList)]
  ∧ stitch_wrapped_lines [("2 EA".toList), ("".toList), ("Valve A B".toList)] ≠
      stitch_spec [("2 EA".toList), ("".toList), ("Valve A B".toList)] :=
  ⟨by decide, by decide, by decide⟩

/-- Claim C6 (amended): stitching normalizes each line and drops blank ones; a
line of exactly two tokens `qty unit` (float, EA/LF) is concatenated with
the immediately following physical line when that line normalizes to
non-blank, consuming both; when the following physical line is blank it is
dropped and the qualifying line is kept unstitched; a qualifying line with
no following line, and every non-qualifying line, are kept as-is. -/
theorem stitchQualifies_pair {l q u : List Char} (h : pySplit l = [q, u]) :
    stitchQualifies l =
      ((pyFloat q).isSome &&
        (toUpperL u == ("EA".toList) || toUpperL u == ("LF".toList))) := by
  unfold stitchQualifies
  rw [h]

theorem stitchQualifies_no_pair {l : List Char} (h : ∀ q u, pySplit l ≠ [q, u]) :
    stitchQualifies l = false := by
  unfold stitchQualifies
  cases hsp : pySplit l with
  | nil => rfl
  | cons a as =>
    cases as with
    | nil => rfl
    | cons b bs =>
      cases bs with
      | nil => exact absurd hsp (h a b)
      | cons c cs => rfl

/-- Claim C6 (amended): stitching normalizes each line and drops blank ones; a
line of exactly two tokens `qty unit` (float, EA/LF) is concatenated with
the immediately following physical line when that line normalizes to
non-blank, consuming both; when the following physical line is blank it is
dropped and the qualifying line is kept unstitched; a qualifying line with
no following line, and every non-qualifying line, are kept as-is. -/
theorem C6_stitch_amended (lines : List (List Char)) :
    stitch_wrapped_lines lines = stitch_amended lines := by
  induction lines using stitch_wrapped_lines.induct with
  | case1 => rfl
  | case2 l rest hblank ih =>
    cases rest <;> simp_all [stitch_wrapped_lines, stitch_amended]
  | case3 l hblank q u hsp hcond =>
    simp_all [stitch_wrapped_lines, stitch_amended, stitchQualifies_pair hsp]
  | case4 l hblank q u hsp hcond nxt0 rest2 hnb ih =>
    simp_all [stitch_wrapped_lines, stitch_amended, stitchQualifies_pair hsp]
  | case5 l hblank q u hsp hcond nxt0 rest2 hnb ih =>
    simp_all [stitch_wrapped_lines, stitch_amended, stitchQualifies_pair hsp]
  | case6 l rest hblank q u hsp hcond ih =>
    have hcond' : ((pyFloat q).isSome &&
        (toUpperL u == ("EA".toList) || toUpperL u == ("LF".toList))) = false := by
      cases hx : ((pyFloat q).isSome &&
          (toUpperL u == ("EA".toList) || toUpperL u == ("LF".toList))) with
      | false => rfl
      | true => exact absurd hx hcond
    have hbl : (normalize_text l).isEmpty = false := by
      cases hx : (normalize_text l).isEmpty with
      | false => rfl
      | true => exact absurd hx hblank
    cases rest with
    | nil =>
      simp only [stitch_wrapped_lines, stitch_amended, hbl, Bool.false_eq_true,
        if_false, hsp, hcond', stitchQualifies_pair hsp]
    | cons nh nt =>
      simp only [stitch_wrapped_lines, stitch_amended, hbl, Bool.false_eq_true,
        if_false, hsp, hcond', stitchQualifies_pair hsp, ih]
  | case7 l rest hblank hnopair ih =>
    cases rest <;>
      simp_all [stitch_wrapped_lines, stitch_amended, stitchQualifies_no_pair hnopair]

/-! ### Claim C4: table header hint check -/

/-- Claim C4 (amended): for a grid with at least two rows the extractor proceeds
to column resolution if and only if at least one normalized, lower-cased
header cell is exactly equal to one of the hint tokens (Python set
membership, not substring containment); otherwise it returns the empty
record list. -/
theorem C4_header_hint_amended (hdr r1 : List Cell) (body : List (List Cell))
    (src : List Char) :
    (headerHintPass (headerOf hdr) = true ↔ ∃ c ∈ headerOf hdr, c ∈ HEADER_HINTS)
  ∧ (headerHintPass (headerOf hdr) = true →
      extract_rows_from_table (some (hdr :: r1 :: body)) src =
        resolveColumns (headerOf hdr) (r1 :: body) src)
  ∧ (headerHintPass (headerOf hdr) = false →
      extract_rows_from_table (some (hdr :: r1 :: body)) src = some []) := by
  refine ⟨?_, ?_, ?_⟩
  · simp [headerHintPass, List.any_eq_true]
  · intro h
    simp only [extract_rows_from_table, h, if_true]
  · intro h
    simp only [extract_rows_from_table, h, Bool.false_eq_true, if_false]

/-- Claim C4 counterexample: a header whose cells contain the hint tokens strictly
as substrings (`"quantity:"`, `"units:"`, `"size:"`, `"description:"`)
satisfies the claim's substring condition, yet the code rejects the table
(exact set membership fails) and returns no records, while the claim's
substring reading would proceed and extract the valid data row. -/
theorem C4_header_hint_counterexample :
    headerHintSub (headerOf [some ("quantity:".toList), some ("units:".toList),
        some ("size:".toList), some ("description:".toList)]) = true
  ∧ headerHintPass (headerOf [some ("quantity:".toList), some ("units:".toList),
        some ("size:".toList), some ("description:".toList)]) = false
  ∧ extract_rows_from_table (some [[some ("quantity:".toList), some ("units:".toList),
        some ("size:".toList), some ("description:".toList)],
        [some ("1".toList), some ("EA".toList), some ("2".toList),
          some ("Ball Valve".toList)]]) ("doc".toList) = some []
  ∧ extract_rows_from_table_spec (some [[some ("quantity:".toList), some ("units:".toList),
        some ("size:".toList), some ("description:".toList)],
        [some ("1".toList), some ("EA".toList), some ("2".toList),
          some ("Ball Valve".toList)]]) ("doc".toList) ≠ some [] :=
  ⟨by decide, by decide, by decide, by decide⟩

/-- Witness for C4 (amended): a header with an exact hint match proceeds to
column resolution. -/
theorem C4_header_hint_witness :
    headerHintPass (headerOf [some ("quantity".toList), some ("units".toList),
        some ("size".toList), some ("description".toList)]) = true
  ∧ extract_rows_from_table (some [[some ("quantity".toList), some ("units".toList),
        some ("size".toList), some ("description".toList)],
        [some ("1".toList), some ("EA".toList), some ("2".toList),
          some ("Ball Valve".toList)]]) ("doc".toList) =
      resolveColumns (headerOf [some ("quantity".toList), some ("units".toList),
        some ("size".toList), some ("description".toList)])
        [[some ("1".toList), some ("EA".toList), some ("2".toList),
          some ("Ball Valve".toList)]] ("doc".toList) :=
  ⟨by decide,
    (C4_header_hint_amended
      [some ("quantity".toList), some ("units".toList), some ("size".toList),
        some ("description".toList)]
      [some ("1".toList), some ("EA".toList), some ("2".toList), some ("Ball Valve".toList)]
      [] ("doc".toList)).2.1 (by decide)⟩

/-! ### Claim C10: the per-page extractors never raise -/

theorem mapMO_isSome {A B : Type} (f : A → Option B) :
    ∀ l : List A, (∀ a ∈ l, (f a).isSome = true) → (mapMO f l).isSome = true := by
  intro l
  induction l with
  | nil => intro _; rfl
  | cons a as ih =>
    intro h
    have ha := h a (by simp)
    have hrest := ih fun x hx => h x (by simp [hx])
    cases hfa : f a with
    | none => rw [hfa] at ha; exact absurd ha (by simp)
    | some b =>
      cases hr : mapMO f as with
      | none => rw [hr] at hrest; exact absurd hrest (by simp)
      | some bs => simp [mapMO, hfa, hr]

theorem processTableRow_isSome (iq iu isz idsc : Nat) (src : List Char)
    (r : List Cell) : (processTableRow iq iu isz idsc src r).isSome = true := by
  unfold processTableRow
  split
  · rfl
  · rename_i hguard
    have hlen : max (max iq iu) (max isz idsc) + 1 ≤ r.length := by
      rcases Nat.lt_or_ge r.length (max (max iq iu) (max isz idsc) + 1) with hlt | hge
      · exact absurd (Or.inr hlt) hguard
      · exact hge
    have hq : iq < r.length := by omega
    have hu : iu < r.length := by omega
    have hsz : isz < r.length := by omega
    have hd : idsc < r.length := by omega
    rw [List.get?_eq_get hq, List.get?_eq_get hu, List.get?_eq_get hsz,
      List.get?_eq_get hd]
    split
    · dsimp only
      split
      · rfl
      · split <;> rfl
    · rename_i hcontra
      exact absurd rfl (hcontra _ _ _ _ rfl rfl rfl)

theorem resolveColumns_isSome (header : List (List Char)) (body : List (List Cell))
    (src : List Char) : (resolveColumns header body src).isSome = true := by
  unfold resolveColumns
  split
  · rename_i iq iu isz idsc hq hu hsz hd
    rcases hm : mapMO (processTableRow iq iu isz idsc src) body with _ | os
    · have hall := mapMO_isSome _ body fun r hr => processTableRow_isSome iq iu isz idsc src r
      rw [hm] at hall
      exact absurd hall (by simp)
    · rfl
  · rfl

theorem processLine_isSome (src line : List Char) :
    (processLine src line).isSome = true := by
  unfold processLine
  dsimp only
  split
  · rfl
  · rename_i hblank
    split
    · rfl
    · split
      · rfl
      · rename_i hlen
        have h4 : 4 ≤ (pySplit (normalize_text line)).length := Nat.le_of_not_lt hlen
        have h0 : 0 < (pySplit (normalize_text line)).length := by omega
        have h1 : 1 < (pySplit (normalize_text line)).length := by omega
        rw [List.get?_eq_get h0, List.get?_eq_get h1]
        split
        · split
          · rfl
          · split
            · rfl
            · split <;> rfl
        · rename_i hcontra
          simp_all

/-- Claim C10: the per-page extractors are total on all well-typed inputs: every
table grid (absent, short, ragged rows, absent cells) yields a record list
from `extract_rows_from_table`, and every text value (absent or empty
included) yields a record list from `extract_rows_from_text`; the modelled
exception layer (`none`) never fires. -/
theorem C10_extractors_total (table : Option (List (List Cell))) (src : List Char)
    (text : Option (List Char)) (src' : List Char) :
    (extract_rows_from_table table src).isSome = true
  ∧ (extract_rows_from_text text src').isSome = true := by
  constructor
  · match table with
    | none => rfl
    | some [] => rfl
    | some [r] => rfl
    | some (hdr :: r1 :: body) =>
      simp only [extract_rows_from_table]
      split
      · exact resolveColumns_isSome _ _ _
      · rfl
  · match text with
    | none => rfl
    | some t =>
      simp only [extract_rows_from_text]
      split
      · rfl
      · rcases hm : mapMO (processLine src') (stitch_wrapped_lines (pySplitlines t)) with _ | os
        · have hall := mapMO_isSome (processLine src') (stitch_wrapped_lines (pySplitlines t))
            fun l hl => processLine_isSome src' l
          rw [hm] at hall
          exact absurd hall (by simp)
        · rfl

/-! ### Claim C7: size vs description segmentation -/

theorem normalize_text_nil : normalize_text [] = [] := rfl

theorem joinWords_ne_nil (w : List Char) (ws : List (List Char))
    (h : GoodWords (w :: ws)) : joinWords (w :: ws) ≠ [] := by
  cases ws with
  | nil => exact (h w (by simp)).1
  | cons v vs =>
    rw [joinWords_cons₂]
    intro hcontra
    have h2 := List.append_eq_nil.mp hcontra
    simp at h2

theorem firstIdx_lt_length (p : List Char → Bool) :
    ∀ (l : List (List Char)) (i : Nat), firstIdx p l = some i → i < l.length := by
  intro l
  induction l with
  | nil => intro i h; simp [firstIdx] at h
  | cons x xs ih =>
    intro i h
    by_cases hp : p x = true
    · rw [firstIdx, if_pos hp] at h
      injection h with h
      subst h
      simp
    · simp [firstIdx, hp] at h
      obtain ⟨j, hj, rfl⟩ := h
      simpa using Nat.succ_lt_succ (ih j hj)

/-- Modelled from the spec claim for C7: the size the claim predicts — the
tokens of the remainder strictly before the first description-start marker,
joined by single spaces, and empty when no marker exists or the marker is
the first token. -/
def c7_spec_size (rest : List (List Char)) : List Char :=
  match find_desc_start_index rest with
  | none => []
  | some 0 => []
  | some k => joinWords (rest.take k)

/-- Modelled from the spec claim for C7: the description the claim
predicts — the whole remainder when no marker exists or it is first,
otherwise the tokens from the marker onward, joined by single spaces. -/
def c7_spec_desc (rest : List (List Char)) : List Char :=
  match find_desc_start_index rest with
  | none => joinWords rest
  | some 0 => joinWords rest
  | some k => joinWords (rest.drop k)

/-- Claim C7: a stitched line that passes every prefix check (non-blank, not a
noise line, at least four tokens, float quantity, EA/LF units) emits exactly
one record whose size and description are the spec's segmentation of the
remainder: size empty and description the whole remainder when the marker is
missing or first, otherwise the split at the first marker, all joined by
single spaces (the code's re-normalization is the identity there). -/
theorem C7_segmentation (src line q u : List Char) (rest : List (List Char)) (qv : ℚ)
    (hnoise1 : ("dkc -".toList).isPrefixOf (toLowerL (normalize_text line)) = false)
    (hnoise2 : ("quantity units".toList).isPrefixOf (toLowerL (normalize_text line)) = false)
    (hparts : pySplit (normalize_text line) = q :: u :: rest)
    (hlen : 2 ≤ rest.length)
    (hq : pyFloat q = some qv)
    (hunit : toUpperL (normalize_text u) = ("EA".toList) ∨
      toUpperL (normalize_text u) = ("LF".toList)) :
    processLine src line = some (some (Record.mk src qv (normalize_text u)
      (c7_spec_size rest) (c7_spec_desc rest)
      (make_item_key (c7_spec_size rest) (c7_spec_desc rest) (normalize_text u)))) := by
  have hblank : normalize_text line ≠ [] := by
    intro h0
    rw [h0, pySplit_nil] at hparts
    exact List.noConfusion hparts
  have hgood : GoodWords (q :: u :: rest) := by
    rw [← hparts]
    exact pySplit_good _
  have hrest : GoodWords rest := fun w hw => hgood w (by simp [hw])
  unfold processLine
  dsimp only
  rw [if_neg hblank]
  rw [if_neg (by rw [hnoise1, hnoise2]; rintro (hcv | hcv) <;> exact Bool.noConfusion hcv)]
  rw [hparts]
  rw [if_neg (by simp only [List.length_cons]; omega)]
  simp only [List.get?_cons_zero, List.get?_cons_succ]
  simp only [hq]
  rw [if_neg fun hn => hn hunit]
  rw [show List.drop 2 (q :: u :: rest) = rest from rfl]
  cases hidx : find_desc_start_index rest with
  | none =>
    obtain ⟨w, ws, rfl⟩ : ∃ w ws, rest = w :: ws := by
      cases rest with
      | nil => simp at hlen
      | cons w ws => exact ⟨w, ws, rfl⟩
    simp only [hidx, c7_spec_size, c7_spec_desc, normalize_text_nil,
      normalize_text_joinWords _ hrest]
    rw [if_neg (joinWords_ne_nil w ws hrest)]
  | some k =>
    cases k with
    | zero =>
      obtain ⟨w, ws, rfl⟩ : ∃ w ws, rest = w :: ws := by
        cases rest with
        | nil => simp at hlen
        | cons w ws => exact ⟨w, ws, rfl⟩
      simp only [hidx, c7_spec_size, c7_spec_desc, normalize_text_nil,
        normalize_text_joinWords _ hrest]
      rw [if_neg (joinWords_ne_nil w ws hrest)]
    | succ k =>
      have hk : k + 1 < rest.length := firstIdx_lt_length _ rest (k + 1) hidx
      have htake : GoodWords (rest.take (k + 1)) :=
        fun w hw => hrest w (List.mem_of_mem_take hw)
      have hdropg : GoodWords (rest.drop (k + 1)) :=
        fun w hw => hrest w (List.mem_of_mem_drop hw)
      obtain ⟨w, ws, hdrop⟩ : ∃ w ws, rest.drop (k + 1) = w :: ws := by
        cases hd : rest.drop (k + 1) with
        | nil =>
          have := List.drop_eq_nil_iff.mp hd
          omega
        | cons w ws => exact ⟨w, ws, rfl⟩
      simp only [hidx, c7_spec_size, c7_spec_desc,
        normalize_text_joinWords _ htake, normalize_text_joinWords _ hdropg]
      rw [hdrop] at hdropg
      rw [hdrop, if_neg (joinWords_ne_nil w ws hdropg)]

/-- Witness for C7 on the line `"2 EA 1/2 Valve Bronze"`: the marker
`valve` is at index 1 of the remainder, so size is `"1/2"` and description
`"Valve Bronze"`. -/
theorem C7_segmentation_witness :
    ("dkc -".toList).isPrefixOf
      (toLowerL (normalize_text ("2 EA 1/2 Valve Bronze".toList))) = false
  ∧ ("quantity units".toList).isPrefixOf
      (toLowerL (normalize_text ("2 EA 1/2 Valve Bronze".toList))) = false
  ∧ pySplit (normalize_text ("2 EA 1/2 Valve Bronze".toList)) =
      ("2".toList) :: ("EA".toList) ::
        [("1/2".toList), ("Valve".toList), ("Bronze".toList)]
  ∧ 2 ≤ ([("1/2".toList), ("Valve".toList), ("Bronze".toList)] :
      List (List Char)).length
  ∧ pyFloat ("2".toList) = some 2
  ∧ (toUpperL (normalize_text ("EA".toList)) = ("EA".toList) ∨
      toUpperL (normalize_text ("EA".toList)) = ("LF".toList))
  ∧ processLine ("doc".toList) ("2 EA 1/2 Valve Bronze".toList) =
      some (some (Record.mk ("doc".toList) 2 (normalize_text ("EA".toList))
        (c7_spec_size [("1/2".toList), ("Valve".toList), ("Bronze".toList)])
        (c7_spec_desc [("1/2".toList), ("Valve".toList), ("Bronze".toList)])
        (make_item_key
          (c7_spec_size [("1/2".toList), ("Valve".toList), ("Bronze".toList)])
          (c7_spec_desc [("1/2".toList), ("Valve".toList), ("Bronze".toList)])
          (normalize_text ("EA".toList))))) :=
  ⟨by decide, by decide, by decide, by decide,
    by simp +decide [pyFloat, pyStrip, natOfDigits], by decide,
    C7_segmentation ("doc".toList) ("2 EA 1/2 Valve Bronze".toList)
      ("2".toList) ("EA".toList)
      [("1/2".toList), ("Valve".toList), ("Bronze".toList)] 2
      (by decide) (by decide) (by decide) (by decide)
      (by simp +decide [pyFloat, pyStrip, natOfDigits]) (by decide)⟩

/-! ### Claim C9: fatal abort when no records were extracted -/

/-- Claim C9: when extraction over every discovered document yields zero raw
records, the post-extraction pipeline aborts with the distinct
`No rows extracted` error and produces no output (no aggregation or sort is
attempted, nothing reaches the sink). -/
theorem C9_no_rows_fatal (docs : List (List Record)) (h : ∀ d ∈ docs, d = []) :
    mainPipeline docs.flatten = Except.error PipelineError.noRowsExtracted := by
  have hnil : docs.flatten = [] := by
    induction docs with
    | nil => rfl
    | cons d ds ih =>
      rw [List.flatten_cons, h d (by simp), List.nil_append]
      exact ih fun x hx => h x (by simp [hx])
  rw [hnil]
  rfl

/-- Witness for C9: two documents, each with zero records. -/
theorem C9_no_rows_fatal_witness :
    (∀ d ∈ [([] : List Record), []], d = [])
  ∧ mainPipeline ([([] : List Record), []].flatten) =
      Except.error PipelineError.noRowsExtracted :=
  ⟨by decide, C9_no_rows_fatal [[], []] (by decide)⟩

/-! ### Claim C1: aggregation sum invariant -/

theorem filter_eq_singleton_of_nodup {A : Type} [DecidableEq A] :
    ∀ (l : List A) (a : A), l.Nodup → a ∈ l →
      l.filter (fun x => decide (x = a)) = [a] := by
  intro l a
  induction l with
  | nil => intro _ h; exact absurd h (by simp)
  | cons x xs ih =>
    intro hnd hmem
    have hx := List.nodup_cons.mp hnd
    rw [List.filter_cons]
    rcases List.mem_cons.mp hmem with rfl | hmem'
    · rw [if_pos (by simp)]
      have hnone : xs.filter (fun y => decide (y = a)) = [] := by
        rw [List.filter_eq_nil_iff]
        intro y hy
        simp only [decide_eq_true_eq]
        intro he
        rw [he] at hy
        exact hx.1 hy
      rw [hnone]
    · rw [if_neg (by
        simp only [decide_eq_true_eq]
        intro he
        rw [he] at hx
        exact hx.1 hmem')]
      exact ih hx.2 hmem'

theorem masterKey_mkMaster (rs : List Record) (k : GroupKey) :
    masterKey (mkMaster rs k) = k := by
  obtain ⟨a, b, c, d⟩ := k
  rfl

/-- Claim C1 (amended): aggregation groups by the full 4-tuple
(`item_key`, `units`, `size`, `description`), the three source fields taken
as stored (not re-lower-cased). For every such group key present in the raw
records there is exactly one master record with that key; its quantity is
the exact sum of the quantities of the raw records in that group; and the
sum does not depend on the order of the raw records or on how they were
spread over documents. Two raw records can share an `item_key` while
differing in the letter case of the stored fields, and then produce two
master records with that `item_key` (see the counterexample). -/
theorem C1_aggregation_amended (rs rs' : List Record) (hperm : rs.Perm rs')
    (k : GroupKey) (hk : k ∈ rs.map recKey) :
    ((aggregate rs).filter fun m => decide (masterKey m = k)).length = 1
  ∧ (∀ m ∈ aggregate rs, masterKey m = k → m.quantity = groupQty rs k)
  ∧ groupQty rs k = groupQty rs' k := by
  have hkeysnd : (((rs.map recKey).dedup).insertionSort
      fun a b => groupKeyLe a b = true).Nodup :=
    (List.perm_insertionSort _ _).symm.nodup (List.nodup_dedup _)
  have hkmem : k ∈ ((rs.map recKey).dedup).insertionSort
      fun a b => groupKeyLe a b = true := by
    rw [(List.perm_insertionSort _ _).mem_iff, List.mem_dedup]
    exact hk
  refine ⟨?_, ?_, ?_⟩
  · unfold aggregate
    rw [List.filter_map]
    have hpred : ((fun m => decide (masterKey m = k)) ∘ mkMaster rs) =
        fun k' => decide (k' = k) := by
      funext k'
      simp [Function.comp, masterKey_mkMaster]
    rw [hpred, filter_eq_singleton_of_nodup _ k hkeysnd hkmem]
    rfl
  · intro m hm hkey
    unfold aggregate at hm
    rcases List.mem_map.mp hm with ⟨k', hk', rfl⟩
    rw [masterKey_mkMaster] at hkey
    rw [hkey]
    rfl
  · exact List.Perm.sum_eq (List.Perm.map _ (List.Perm.filter _ hperm))

/-- Claim C1 counterexample: two raw records that agree on everything except the
letter case of the stored `units` field share an `item_key` (the key
lower-cases) but land in two different `groupby` groups, so the master list
holds two records for that `item_key` instead of the single summed record
the claim predicts. -/
theorem C1_aggregation_counterexample :
    (Record.mk ("docA".toList) 1 ("EA".toList) ("1".toList) ("Valve".toList)
        (make_item_key ("1".toList) ("Valve".toList) ("EA".toList))).item_key =
      ("ea | 1 | valve".toList)
  ∧ (Record.mk ("docB".toList) 2 ("ea".toList) ("1".toList) ("Valve".toList)
        (make_item_key ("1".toList) ("Valve".toList) ("ea".toList))).item_key =
      ("ea | 1 | valve".toList)
  ∧ ((aggregate [Record.mk ("docA".toList) 1 ("EA".toList) ("1".toList) ("Valve".toList)
          (make_item_key ("1".toList) ("Valve".toList) ("EA".toList)),
        Record.mk ("docB".toList) 2 ("ea".toList) ("1".toList) ("Valve".toList)
          (make_item_key ("1".toList) ("Valve".toList) ("ea".toList))]).filter
      fun m => decide (m.item_key = ("ea | 1 | valve".toList))).length = 2 :=
  ⟨by decide, by decide, by decide⟩

/-- First concrete record for the C1 witness. -/
def c1w_rec1 : Record :=
  Record.mk ("docA".toList) 1 ("EA".toList) ("1".toList) ("Valve".toList)
    (make_item_key ("1".toList) ("Valve".toList) ("EA".toList))

/-- Second concrete record for the C1 witness (same group, other document). -/
def c1w_rec2 : Record :=
  Record.mk ("docB".toList) 2 ("EA".toList) ("1".toList) ("Valve".toList)
    (make_item_key ("1".toList) ("Valve".toList) ("EA".toList))

/-- Witness for C1 (amended): two records of one group split across two
documents, and the same records in the opposite order. -/
theorem C1_aggregation_witness :
    ([c1w_rec1, c1w_rec2].Perm [c1w_rec2, c1w_rec1])
  ∧ recKey c1w_rec1 ∈ [c1w_rec1, c1w_rec2].map recKey
  ∧ ((aggregate [c1w_rec1, c1w_rec2]).filter
      fun m => decide (masterKey m = recKey c1w_rec1)).length = 1
  ∧ (∀ m ∈ aggregate [c1w_rec1, c1w_rec2], masterKey m = recKey c1w_rec1 →
      m.quantity = groupQty [c1w_rec1, c1w_rec2] (recKey c1w_rec1))
  ∧ groupQty [c1w_rec1, c1w_rec2] (recKey c1w_rec1) =
      groupQty [c1w_rec2, c1w_rec1] (recKey c1w_rec1) :=
  ⟨by decide, by decide,
    (C1_aggregation_amended [c1w_rec1, c1w_rec2] [c1w_rec2, c1w_rec1] (by decide)
      (recKey c1w_rec1) (by decide)).1,
    (C1_aggregation_amended [c1w_rec1, c1w_rec2] [c1w_rec2, c1w_rec1] (by decide)
      (recKey c1w_rec1) (by decide)).2.1,
    (C1_aggregation_amended [c1w_rec1, c1w_rec2] [c1w_rec2, c1w_rec1] (by decide)
      (recKey c1w_rec1) (by decide)).2.2⟩

/-! ### Claim C3: master list sort order -/

theorem lexLt_irrefl : ∀ a : List Char, lexLt a a = false := by
  intro a
  induction a with
  | nil => rfl
  | cons c cs ih =>
    simp only [lexLt, ih, Bool.and_false, Bool.or_false]
    exact decide_eq_false (lt_irrefl c)

theorem lexLt_trans :
    ∀ a b c : List Char, lexLt a b = true → lexLt b c = true → lexLt a c = true := by
  intro a
  induction a with
  | nil =>
    intro b c hab hbc
    cases b with
    | nil => exact absurd hab (by simp [lexLt])
    | cons y ys =>
      cases c with
      | nil => exact absurd hbc (by simp [lexLt])
      | cons z zs => rfl
  | cons x xs ih =>
    intro b c hab hbc
    cases b with
    | nil => exact absurd hab (by simp [lexLt])
    | cons y ys =>
      cases c with
      | nil => exact absurd hbc (by simp [lexLt])
      | cons z zs =>
        simp only [lexLt, Bool.or_eq_true, Bool.and_eq_true, decide_eq_true_eq,
          beq_iff_eq] at hab hbc ⊢
        rcases hab with hxy | ⟨hxy, hxs⟩
        · rcases hbc with hyz | ⟨hyz, hys⟩
          · exact Or.inl (lt_trans hxy hyz)
          · exact Or.inl (by rw [← hyz]; exact hxy)
        · rcases hbc with hyz | ⟨hyz, hys⟩
          · exact Or.inl (by rw [hxy]; exact hyz)
          · exact Or.inr ⟨hxy.trans hyz, ih ys zs hxs hys⟩

theorem lexLt_connex :
    ∀ a b : List Char, a ≠ b → (lexLt a b || lexLt b a) = true := by
  intro a
  induction a with
  | nil =>
    intro b hne
    cases b with
    | nil => exact absurd rfl hne
    | cons y ys => rfl
  | cons x xs ih =>
    intro b hne
    cases b with
    | nil => rfl
    | cons y ys =>
      by_cases hxy : x = y
      · subst hxy
        have hne' : xs ≠ ys := fun hcv => hne (by rw [hcv])
        have hrec := ih ys hne'
        rw [Bool.or_eq_true] at hrec
        rw [Bool.or_eq_true]
        simp only [lexLt, Bool.or_eq_true, Bool.and_eq_true, decide_eq_true_eq,
          beq_iff_eq]
        rcases hrec with hcv | hcv
        · exact Or.inl (Or.inr ⟨by trivial, hcv⟩)
        · exact Or.inr (Or.inr ⟨by trivial, hcv⟩)
      · rcases lt_or_gt_of_ne hxy with hlt | hgt
        · simp [lexLt, decide_eq_true hlt]
        · simp [lexLt, decide_eq_true hgt]

theorem masterLe_eq_rank {a b : Master × ℚ}
    (h : unit_order_rank a.1.units ≠ unit_order_rank b.1.units) :
    masterLe a b = decide (unit_order_rank a.1.units < unit_order_rank b.1.units) := by
  unfold masterLe
  rw [if_pos h]

theorem masterLe_eq_desc {a b : Master × ℚ}
    (hr : unit_order_rank a.1.units = unit_order_rank b.1.units)
    (hd : a.1.description ≠ b.1.description) :
    masterLe a b = lexLt a.1.description b.1.description := by
  unfold masterLe
  rw [if_neg (fun hne => hne hr), if_pos hd]

theorem masterLe_eq_qty {a b : Master × ℚ}
    (hr : unit_order_rank a.1.units = unit_order_rank b.1.units)
    (hd : a.1.description = b.1.description) :
    masterLe a b = decide (a.2 ≤ b.2) := by
  unfold masterLe
  rw [if_neg (fun hne => hne hr), if_neg (fun hne => hne hd)]

theorem masterLe_total : ∀ a b : Master × ℚ, masterLe a b = true ∨ masterLe b a = true := by
  intro a b
  by_cases hr : unit_order_rank a.1.units = unit_order_rank b.1.units
  · by_cases hd : a.1.description = b.1.description
    · rw [masterLe_eq_qty hr hd, masterLe_eq_qty hr.symm hd.symm]
      rcases le_total a.2 b.2 with hcv | hcv
      · exact Or.inl (decide_eq_true hcv)
      · exact Or.inr (decide_eq_true hcv)
    · rw [masterLe_eq_desc hr hd, masterLe_eq_desc hr.symm (Ne.symm hd)]
      have hcon := lexLt_connex a.1.description b.1.description hd
      rw [Bool.or_eq_true] at hcon
      exact hcon
  · rw [masterLe_eq_rank hr, masterLe_eq_rank (Ne.symm hr)]
    rcases Nat.lt_or_ge (unit_order_rank a.1.units) (unit_order_rank b.1.units) with hcv | hcv
    · exact Or.inl (decide_eq_true hcv)
    · exact Or.inr (decide_eq_true (lt_of_le_of_ne hcv (Ne.symm hr)))

theorem masterLe_trans : ∀ a b c : Master × ℚ,
    masterLe a b = true → masterLe b c = true → masterLe a c = true := by
  intro a b c hab hbc
  by_cases hrab : unit_order_rank a.1.units = unit_order_rank b.1.units
  · by_cases hrbc : unit_order_rank b.1.units = unit_order_rank c.1.units
    · have hrac : unit_order_rank a.1.units = unit_order_rank c.1.units := hrab.trans hrbc
      by_cases hdab : a.1.description = b.1.description
      · by_cases hdbc : b.1.description = c.1.description
        · have hdac := hdab.trans hdbc
          rw [masterLe_eq_qty hrab hdab] at hab
          rw [masterLe_eq_qty hrbc hdbc] at hbc
          rw [masterLe_eq_qty hrac hdac]
          exact decide_eq_true (le_trans (of_decide_eq_true hab) (of_decide_eq_true hbc))
        · have hdac : a.1.description ≠ c.1.description := by rw [hdab]; exact hdbc
          rw [masterLe_eq_desc hrbc hdbc] at hbc
          rw [masterLe_eq_desc hrac hdac, hdab]
          exact hbc
      · by_cases hdbc : b.1.description = c.1.description
        · have hdac : a.1.description ≠ c.1.description := by rw [← hdbc]; exact hdab
          rw [masterLe_eq_desc hrab hdab] at hab
          rw [masterLe_eq_desc hrac hdac, ← hdbc]
          exact hab
        · rw [masterLe_eq_desc hrab hdab] at hab
          rw [masterLe_eq_desc hrbc hdbc] at hbc
          have hlt := lexLt_trans _ _ _ hab hbc
          have hdac : a.1.description ≠ c.1.description := by
            intro he
            rw [he] at hab
            have hbad := lexLt_trans _ _ _ hab hbc
            rw [he, lexLt_irrefl] at hlt
            exact Bool.noConfusion hlt
          rw [masterLe_eq_desc hrac hdac]
          exact hlt
    · have hrac : unit_order_rank a.1.units ≠ unit_order_rank c.1.units := by
        rw [hrab]; exact hrbc
      rw [masterLe_eq_rank hrbc] at hbc
      rw [masterLe_eq_rank hrac, hrab]
      exact hbc
  · by_cases hrbc : unit_order_rank b.1.units = unit_order_rank c.1.units
    · have hrac : unit_order_rank a.1.units ≠ unit_order_rank c.1.units := by
        rw [← hrbc]; exact hrab
      rw [masterLe_eq_rank hrab] at hab
      rw [masterLe_eq_rank hrac, ← hrbc]
      exact hab
    · rw [masterLe_eq_rank hrab] at hab
      rw [masterLe_eq_rank hrbc] at hbc
      have hlt := lt_trans (of_decide_eq_true hab) (of_decide_eq_true hbc)
      rw [masterLe_eq_rank (Nat.ne_of_lt hlt)]
      exact decide_eq_true hlt

theorem mapMO_mem {A B : Type} (f : A → Option B) :
    ∀ (l : List A) (bs : List B), mapMO f l = some bs →
      ∀ b ∈ bs, ∃ a ∈ l, f a = some b := by
  intro l
  induction l with
  | nil =>
    intro bs h b hb
    simp only [mapMO, Option.some.injEq] at h
    rw [← h] at hb
    exact absurd hb (by simp)
  | cons a as ih =>
    intro bs h b hb
    unfold mapMO at h
    cases hfa : f a with
    | none => rw [hfa] at h; exact absurd h (by simp)
    | some v =>
      rw [hfa] at h
      cases hr : mapMO f as with
      | none => rw [hr] at h; exact absurd h (by simp)
      | some vs =>
        rw [hr] at h
        simp only [Option.some.injEq] at h
        rw [← h] at hb
        rcases List.mem_cons.mp hb with rfl | hb'
        · exact ⟨a, by simp, hfa⟩
        · obtain ⟨a', ha', hfa'⟩ := ih vs hr b hb'
          exact ⟨a', by simp [ha'], hfa'⟩

theorem sortMaster_pair_inv (ms : List Master) (ps : List (Master × ℚ))
    (hm : mapMO (fun m => (size_to_float? m.size).map fun v => (m, v)) ms = some ps) :
    ∀ p ∈ ps, size_to_float? p.1.size = some p.2 := by
  intro p hp
  obtain ⟨m, hmem, hfm⟩ := mapMO_mem _ ms ps hm p hp
  cases hv : size_to_float? m.size with
  | none => rw [hv] at hfm; exact absurd hfm (by simp)
  | some v =>
    rw [hv] at hfm
    simp only [Option.map_some', Option.some.injEq] at hfm
    rw [← hfm]
    exact hv

/-- Claim C3: in the sorted master list, unit-category ranks (`LF` 0, `EA` 1,
anything else 99, case-insensitive) are non-decreasing; among records of
equal rank the descriptions are in ascending code-point lexicographic
order; and among records equal in both, the numeric values that
`size_to_float` produces from the sizes are ascending. -/
theorem C3_sort_order (ms out : List Master) (h : sortMaster? ms = some out)
    (i j : Nat) (a b : Master) (hij : i < j)
    (ha : out.get? i = some a) (hb : out.get? j = some b) :
    unit_order_rank a.units ≤ unit_order_rank b.units
  ∧ (unit_order_rank a.units = unit_order_rank b.units →
      lexLe a.description b.description = true)
  ∧ (unit_order_rank a.units = unit_order_rank b.units →
      a.description = b.description →
      ∀ vi vj : ℚ, size_to_float? a.size = some vi →
        size_to_float? b.size = some vj → vi ≤ vj) := by
  unfold sortMaster? at h
  cases hm : mapMO (fun m => (size_to_float? m.size).map fun v => (m, v)) ms with
  | none => rw [hm] at h; exact absurd h (by simp)
  | some ps =>
    rw [hm] at h
    simp only [Option.map_some', Option.some.injEq] at h
    subst h
    haveI htotal : IsTotal (Master × ℚ) fun x y => masterLe x y = true := ⟨masterLe_total⟩
    haveI htrans : IsTrans (Master × ℚ) fun x y => masterLe x y = true := ⟨masterLe_trans⟩
    have hsorted : List.Sorted (fun x y => masterLe x y = true)
        (ps.insertionSort fun x y => masterLe x y = true) :=
      List.sorted_insertionSort _ _
    rw [List.get?_map] at ha hb
    cases hpa : (ps.insertionSort fun x y => masterLe x y = true).get? i with
    | none => rw [hpa] at ha; exact absurd ha (by simp)
    | some A =>
      rw [hpa] at ha
      simp only [Option.map_some', Option.some.injEq] at ha
      cases hpb : (ps.insertionSort fun x y => masterLe x y = true).get? j with
      | none => rw [hpb] at hb; exact absurd hb (by simp)
      | some B =>
        rw [hpb] at hb
        simp only [Option.map_some', Option.some.injEq] at hb
        obtain ⟨hi', hgi⟩ := List.get?_eq_some.mp hpa
        obtain ⟨hj', hgj⟩ := List.get?_eq_some.mp hpb
        have hR := List.pairwise_iff_get.mp hsorted ⟨i, hi'⟩ ⟨j, hj'⟩ hij
        rw [hgi, hgj] at hR
        have hAinv := sortMaster_pair_inv ms ps hm A
          ((List.perm_insertionSort _ _).mem_iff.mp (List.get?_mem hpa))
        have hBinv := sortMaster_pair_inv ms ps hm B
          ((List.perm_insertionSort _ _).mem_iff.mp (List.get?_mem hpb))
        subst ha hb
        refine ⟨?_, ?_, ?_⟩
        · by_cases hr : unit_order_rank A.1.units = unit_order_rank B.1.units
          · exact le_of_eq hr
          · rw [masterLe_eq_rank hr] at hR
            exact le_of_lt (of_decide_eq_true hR)
        · intro hr
          by_cases hd : A.1.description = B.1.description
          · rw [hd]
            simp [lexLe]
          · rw [masterLe_eq_desc hr hd] at hR
            simp [lexLe, hR]
        · intro hr hd vi vj hvi hvj
          rw [masterLe_eq_qty hr hd] at hR
          rw [hAinv] at hvi
          rw [hBinv] at hvj
          have hvi' : vi = A.2 := by injection hvi with hcv; exact hcv.symm
          have hvj' : vj = B.2 := by injection hvj with hcv; exact hcv.symm
          rw [hvi', hvj']
          exact of_decide_eq_true hR

/-- First master record for the C3 witness (rank 1, `EA`). -/
def c3w_m1 : Master :=
  Master.mk 3 ("EA".toList) ("2".toList) ("B".toList) ("k1".toList)

/-- Second master record for the C3 witness (rank 0, `LF`). -/
def c3w_m2 : Master :=
  Master.mk 4 ("LF".toList) ("3".toList) ("A".toList) ("k2".toList)

/-- Witness for C3: sorting puts the `LF` record before the `EA` record,
and the instantiated rank ordering holds at positions 0 and 1. -/
theorem C3_sort_order_witness :
    sortMaster? [c3w_m1, c3w_m2] = some [c3w_m2, c3w_m1]
  ∧ ([c3w_m2, c3w_m1] : List Master).get? 0 = some c3w_m2
  ∧ ([c3w_m2, c3w_m1] : List Master).get? 1 = some c3w_m1
  ∧ unit_order_rank c3w_m2.units ≤ unit_order_rank c3w_m1.units :=
  ⟨by decide, by decide, by decide,
    (C3_sort_order [c3w_m1, c3w_m2] [c3w_m2, c3w_m1] (by decide) 0 1 c3w_m2 c3w_m1
      (by decide) (by decide) (by decide)).1⟩

end MaterialList
